import Mathlib

/-!
Shallow embedding of `servicename_finder.py` (SuricataRuleSearcher): the
pattern extractor built on the regex `msg:"([^"]+)"` with `re.IGNORECASE`,
the even chunk splitter `_split_lines_evenly`, the chunk scanner
`_find_matches` with its console/file sinks, and the chunk-dispatching
orchestrator `process_file_in_chunks`.  Lines are modelled as `List Char`;
the thread pool is modelled by processing the chunks in order (the total is
a sum, so completion order is irrelevant), and a worker raising an
exception is modelled by an oracle `failed` telling which chunks fail.
-/

set_option autoImplicit false

/-- A line of the input file, including its terminator. -/
abbrev Line := List Char

/-- The characters stripped by Python `str.rstrip()` with no argument
(ASCII whitespace). -/
def pySpace (c : Char) : Bool :=
  c == ' ' || c == '\t' || c == '\n' || c == '\r' ||
    c == Char.ofNat 11 || c == Char.ofNat 12

/-- Python `line.rstrip()`: remove all trailing whitespace characters. -/
def rstrip (l : List Char) : List Char :=
  (l.reverse.dropWhile pySpace).reverse

/-- `leadsWith needle hay`: `hay` starts with `needle`. -/
def leadsWith : List Char → List Char → Bool
  | [], _ => true
  | _ :: _, [] => false
  | a :: as, b :: bs => a == b && leadsWith as bs

/-- Python `needle in hay` on strings: substring containment. -/
def substrIn (needle : List Char) : List Char → Bool
  | [] => needle.isEmpty
  | c :: rest => leadsWith needle (c :: rest) || substrIn needle rest

/-- One attempt of the compiled regex `msg:"([^"]+)"` (IGNORECASE) anchored
at the head of `s`: the literal tag `msg:` case-insensitively, a double
quote, then a maximal non-empty run of non-quote characters that must be
closed by a double quote.  Returns the captured group. -/
def matchAt : List Char → Option (List Char)
  | m :: s :: g :: c :: q :: rest =>
    if m.toLower == 'm' && s.toLower == 's' && g.toLower == 'g' &&
        c == ':' && q == '"' then
      let content := rest.takeWhile (fun ch => ch != '"')
      let after := rest.dropWhile (fun ch => ch != '"')
      if content.isEmpty then none
      else if after.isEmpty then none
      else some content
    else none
  | _ => none

/-- `self.service_pattern.search(line)` followed by `match.group(1)`:
try the anchored match at every position, left to right, and return the
first capture. -/
def extract : List Char → Option (List Char)
  | [] => none
  | c :: rest =>
    match matchAt (c :: rest) with
    | some r => some r
    | none => extract rest

/-- The output destination: console logging (no `output_file`) or the
append-mode file. -/
inductive Sink where
  | console : Sink
  | file : Sink

/-- What one matched line becomes at the sink: the file sink receives the
raw line (`output_file.write(line)`), the console sink receives
`line.rstrip()` (`self.logger.info(line.rstrip())`). -/
def sinkWrite : Sink → Line → Line
  | Sink.file, line => line
  | Sink.console, line => rstrip line

/-- The loop body of `_find_matches`: for each line run the pattern, skip
when there is no match, skip when the capture is falsy or the lowered
service name is not a substring of the lowered capture, otherwise count
the line and forward it to the sink.  Returns the count and the sequence
of sink writes, in line order. -/
def findLoop (lower : List Char) (sink : Sink) : List Line → Nat × List Line
  | [] => (0, [])
  | line :: rest =>
    let r := findLoop lower sink rest
    match extract line with
    | none => r
    | some msg =>
      if msg.isEmpty then r
      else if substrIn lower (msg.map Char.toLower) then
        (r.1 + 1, sinkWrite sink line :: r.2)
      else r

/-- `_find_matches`: returns 0 immediately for an empty service name,
otherwise scans the chunk with the lowered service name. -/
def find_matches (service_name : List Char) (sink : Sink)
    (chunk : List Line) : Nat × List Line :=
  if service_name.isEmpty then (0, [])
  else findLoop (service_name.map Char.toLower) sink chunk

/-- The loop of `_split_lines_evenly`: `k` iterations remain, `i` is the
current chunk index, `start` the current slice start; each chunk is the
Python slice `lines[start:end]` with
`end = start + avg + (1 if i < remainder else 0)`. -/
def split_go {α : Type} (lines : List α) (avg remainder : Nat) :
    Nat → Nat → Nat → List (List α)
  | _, 0, _ => []
  | i, Nat.succ k, start =>
    ((lines.drop start).take
        ((start + avg + (if i < remainder then 1 else 0)) - start)) ::
      split_go lines avg remainder (i + 1) k
        (start + avg + (if i < remainder then 1 else 0))

/-- `_split_lines_evenly(lines, num_chunks)`:
`avg = len(lines) // num_chunks`, `remainder = len(lines) % num_chunks`,
then `num_chunks` successive slices. -/
def split_lines_evenly {α : Type} (lines : List α) (num_chunks : Nat) :
    List (List α) :=
  split_go lines (lines.length / num_chunks) (lines.length % num_chunks)
    0 num_chunks 0

/-- `_validate_service_name`: false exactly when the service name is the
empty (falsy) string. -/
def validate_service_name (service_name : List Char) : Bool :=
  !service_name.isEmpty

/-- Outcome of a run of `process_file_in_chunks`: a `sys.exit` with a
status code, or normal completion with the reported total. -/
inductive RunResult where
  | exited : Nat → RunResult
  | completed : Nat → RunResult
deriving DecidableEq

/-- The `as_completed` collection loop: a `some` result adds its count to
the total, a `none` (a worker exception caught by the `except` branch,
which only logs) adds nothing. -/
def collectTotal : List (Option Nat) → Nat
  | [] => 0
  | r :: rs => (match r with | some n => n | none => 0) + collectTotal rs

/-- `process_file_in_chunks`: exit with status 1 when the service name is
empty (before the file is even consulted), otherwise split the loaded
lines, dispatch one worker per non-empty chunk, and sum the counts of the
workers that did not raise.  `failed c = true` models the worker for chunk
`c` raising an exception that the orchestrator catches and logs. -/
def process_file_in_chunks (service_name : List Char) (sink : Sink)
    (fileLines : List Line) (num_threads : Nat)
    (failed : List Line → Bool) : RunResult :=
  if validate_service_name service_name = false then RunResult.exited 1
  else
    let chunks := split_lines_evenly fileLines num_threads
    let results := (chunks.filter (fun c => !c.isEmpty)).map
      (fun c => if failed c then none
                else some (find_matches service_name sink c).1)
    RunResult.completed (collectTotal results)

/-- The per-line match predicate of the spec (§4.3): the extractor yields
a value and the lowered target occurs as a substring of the lowered
capture. -/
def lineIsMatch (target : List Char) (line : Line) : Bool :=
  match extract line with
  | none => false
  | some msg => substrIn (target.map Char.toLower) (msg.map Char.toLower)

/-- Spec-side description of the console sink (§4.4): the line trimmed of
exactly its trailing line terminator, nothing else. -/
def dropLineTerminator (l : List Char) : List Char :=
  if l.getLast? = some '\n' then l.dropLast else l

/-- The five-character tag `msg:"`, with the three letters matched
case-insensitively. -/
def isMsgTag (t : List Char) : Prop :=
  ∃ m s g, t = [m, s, g, ':', '"'] ∧
    m.toLower = 'm' ∧ s.toLower = 's' ∧ g.toLower = 'g'

/-- The regex matches at the head of `s` with capture `msg`: `s` starts
with the tag, then a non-empty quote-free `msg`, then the closing
quote. -/
def matchesAtHead (s msg : List Char) : Prop :=
  ∃ t v, s = t ++ msg ++ '"' :: v ∧ isMsgTag t ∧ msg ≠ [] ∧ '"' ∉ msg

/-- The regex matches in `line` at start position `p` with capture
`msg`. -/
def matchPos (line : List Char) (p : Nat) (msg : List Char) : Prop :=
  matchesAtHead (line.drop p) msg

/-- Auxiliary: total size of chunks `i, i+1, …, i+k-1` under the size
rule of `_split_lines_evenly`. -/
def sizesSum (avg remainder : Nat) : Nat → Nat → Nat
  | _, 0 => 0
  | i, Nat.succ k =>
    (avg + (if i < remainder then 1 else 0)) + sizesSum avg remainder (i + 1) k

/-! ### Lemmas about the chunk splitter -/

theorem split_go_length {α : Type} (lines : List α) (avg rem : Nat) :
    ∀ (k i start : Nat), (split_go lines avg rem i k start).length = k := by
  intro k
  induction k with
  | zero => intro i start; rfl
  | succ k ih => intro i start; simp [split_go, ih]

theorem split_lines_evenly_length {α : Type} (lines : List α) (n : Nat) :
    (split_lines_evenly lines n).length = n :=
  split_go_length lines _ _ n 0 0

theorem sizesSum_eq (avg rem : Nat) :
    ∀ (k i : Nat),
      sizesSum avg rem i k = avg * k + (min rem (i + k) - min rem i) := by
  intro k
  induction k with
  | zero => intro i; simp [sizesSum]
  | succ k ih =>
    intro i
    rw [sizesSum, ih (i + 1), Nat.mul_succ]
    by_cases h : i < rem
    · rw [if_pos h]; omega
    · rw [if_neg h]; omega

theorem sizesSum_total (L n : Nat) (hn : 1 ≤ n) :
    sizesSum (L / n) (L % n) 0 n = L := by
  have h1 : n * (L / n) + L % n = L := Nat.div_add_mod L n
  have h2 : L % n < n := Nat.mod_lt L hn
  rw [sizesSum_eq]
  have h3 : L / n * n = n * (L / n) := Nat.mul_comm _ _
  rw [h3]
  omega

theorem split_go_flatten {α : Type} (lines : List α) (avg rem : Nat) :
    ∀ (k i start : Nat),
      (split_go lines avg rem i k start).flatten
        = (lines.drop start).take (sizesSum avg rem i k) := by
  intro k
  induction k with
  | zero => intro i start; simp [split_go, sizesSum]
  | succ k ih =>
    intro i start
    rw [split_go, List.flatten_cons, ih, sizesSum]
    have e1 : (start + avg + (if i < rem then 1 else 0)) - start
        = avg + (if i < rem then 1 else 0) := by omega
    rw [e1, List.take_add, List.drop_drop]
    have e2 : start + (avg + (if i < rem then 1 else 0))
        = start + avg + (if i < rem then 1 else 0) := by omega
    conv_rhs => rw [List.take_add, List.take_add, List.drop_drop,
      List.drop_drop, e2]

theorem split_lines_evenly_flatten {α : Type} (lines : List α) (n : Nat)
    (hn : 1 ≤ n) : (split_lines_evenly lines n).flatten = lines := by
  rw [split_lines_evenly, split_go_flatten, sizesSum_total _ _ hn,
    List.drop_zero, List.take_length]

theorem split_go_get {α : Type} (lines : List α) (avg rem : Nat) :
    ∀ (k j i start : Nat)
      (h2 : j < (split_go lines avg rem i k start).length),
      (split_go lines avg rem i k start).get ⟨j, h2⟩
        = (lines.drop (start + sizesSum avg rem i j)).take
            (avg + (if i + j < rem then 1 else 0)) := by
  intro k
  induction k with
  | zero =>
    intro j i start h2
    rw [split_go_length] at h2
    exact absurd h2 (Nat.not_lt_zero j)
  | succ k ih =>
    intro j i start h2
    cases j with
    | zero =>
      show (lines.drop start).take
          ((start + avg + (if i < rem then 1 else 0)) - start)
        = (lines.drop (start + sizesSum avg rem i 0)).take
            (avg + (if i + 0 < rem then 1 else 0))
      have e1 : (start + avg + (if i < rem then 1 else 0)) - start
          = avg + (if i < rem then 1 else 0) := by omega
      rw [e1, sizesSum, Nat.add_zero, Nat.add_zero]
    | succ j =>
      have h3 : j < (split_go lines avg rem (i + 1) k
          (start + avg + (if i < rem then 1 else 0))).length := by
        rw [split_go_length]
        rw [split_go_length] at h2
        omega
      calc (split_go lines avg rem i (Nat.succ k) start).get ⟨j + 1, h2⟩
          = (split_go lines avg rem (i + 1) k
              (start + avg + (if i < rem then 1 else 0))).get ⟨j, h3⟩ := rfl
        _ = (lines.drop (start + sizesSum avg rem i (j + 1))).take
              (avg + (if i + (j + 1) < rem then 1 else 0)) := by
            rw [ih j (i + 1) (start + avg + (if i < rem then 1 else 0)) h3]
            have e4 : start + avg + (if i < rem then 1 else 0)
                + sizesSum avg rem (i + 1) j
                = start + sizesSum avg rem i (j + 1) := by
              rw [sizesSum]
              omega
            have e5 : i + 1 + j = i + (j + 1) := by omega
            rw [e4, e5]

theorem sizesSum_le_total (L n j : Nat) (hn : 1 ≤ n) (hj : j < n) :
    sizesSum (L / n) (L % n) 0 j
        + (L / n + (if j < L % n then 1 else 0)) ≤ L := by
  have hsplit : sizesSum (L / n) (L % n) 0 j
      + (L / n + (if j < L % n then 1 else 0))
      = sizesSum (L / n) (L % n) 0 (j + 1) := by
    rw [sizesSum_eq, sizesSum_eq, Nat.mul_succ]
    by_cases h : j < L % n
    · rw [if_pos h]; omega
    · rw [if_neg h]; omega
  have hle : sizesSum (L / n) (L % n) 0 (j + 1)
      ≤ sizesSum (L / n) (L % n) 0 n := by
    rw [sizesSum_eq, sizesSum_eq]
    have hm : L / n * (j + 1) ≤ L / n * n := Nat.mul_le_mul_left _ (by omega)
    omega
  rw [hsplit]
  exact hle.trans (Nat.le_of_eq (sizesSum_total L n hn))

theorem split_chunk_length {α : Type} (lines : List α) (n : Nat)
    (hn : 1 ≤ n) (j : Nat) (hj : j < (split_lines_evenly lines n).length) :
    ((split_lines_evenly lines n).get ⟨j, hj⟩).length
      = lines.length / n + (if j < lines.length % n then 1 else 0) := by
  have hjn : j < n := by
    rw [split_lines_evenly_length] at hj
    exact hj
  unfold split_lines_evenly at hj ⊢
  rw [split_go_get]
  rw [List.length_take, List.length_drop]
  have hb := sizesSum_le_total lines.length n j hn hjn
  simp only [Nat.zero_add]
  omega

/-! ### Lemmas about the pattern extractor -/

theorem dropWhile_head_false {α : Type} (p : α → Bool) :
    ∀ (l : List α) (h : l.dropWhile p ≠ []),
      p ((l.dropWhile p).head h) = false := by
  intro l
  induction l with
  | nil => intro h; exact absurd rfl h
  | cons a as ih =>
    by_cases hp : p a = true
    · rw [List.dropWhile_cons, if_pos hp]
      intro h
      exact ih h
    · rw [List.dropWhile_cons, if_neg hp]
      intro h
      simpa using hp

theorem takeWhile_of_append {α : Type} (p : α → Bool) (l : List α) (a : α)
    (t : List α) (hl : ∀ c ∈ l, p c = true) (ha : p a = false) :
    (l ++ a :: t).takeWhile p = l ∧ (l ++ a :: t).dropWhile p = a :: t := by
  induction l with
  | nil =>
    constructor
    · rw [List.nil_append, List.takeWhile_cons, if_neg (by simp [ha])]
    · rw [List.nil_append, List.dropWhile_cons, if_neg (by simp [ha])]
  | cons b bs ih =>
    have hb : p b = true := hl b (by simp)
    have hbs : ∀ c ∈ bs, p c = true := fun c hc => hl c (by simp [hc])
    obtain ⟨h1, h2⟩ := ih hbs
    constructor
    · rw [List.cons_append, List.takeWhile_cons, if_pos hb, h1]
    · rw [List.cons_append, List.dropWhile_cons, if_pos hb, h2]

theorem matchAt_some_iff (s msg : List Char) :
    matchAt s = some msg ↔ matchesAtHead s msg := by
  constructor
  · intro h
    match s with
    | [] => simp [matchAt] at h
    | [_] => simp [matchAt] at h
    | [_, _] => simp [matchAt] at h
    | [_, _, _] => simp [matchAt] at h
    | [_, _, _, _] => simp [matchAt] at h
    | m :: s1 :: g :: c :: q :: rest =>
      simp only [matchAt] at h
      split at h
      case isFalse => exact absurd h (by simp)
      case isTrue hcond =>
        simp only [Bool.and_eq_true, beq_iff_eq] at hcond
        obtain ⟨⟨⟨⟨hm, hs1⟩, hg⟩, hc⟩, hq⟩ := hcond
        split at h
        case isTrue => exact absurd h (by simp)
        case isFalse h1 =>
          split at h
          case isTrue => exact absurd h (by simp)
          case isFalse h2 =>
            have hmsg : msg = rest.takeWhile (fun ch => ch != '"') := by
              injection h with h
              exact h.symm
            have hdrop : rest.dropWhile (fun ch => ch != '"') ≠ [] := by
              intro hc0
              exact h2 (by simp [hc0])
            have hhead : ((rest.dropWhile (fun ch => ch != '"')).head hdrop)
                = '"' := by
              have := dropWhile_head_false (fun ch => ch != '"') rest hdrop
              simpa using this
            refine ⟨[m, s1, g, ':', '"'],
              (rest.dropWhile (fun ch => ch != '"')).tail, ?_,
              ⟨m, s1, g, rfl, hm, hs1, hg⟩, ?_, ?_⟩
            · subst hc hq hmsg
              have : rest.takeWhile (fun ch => ch != '"')
                  ++ '"' :: (rest.dropWhile (fun ch => ch != '"')).tail
                  = rest := by
                conv_rhs => rw [(List.takeWhile_append_dropWhile
                  (fun ch => ch != '"') rest).symm]
                congr 1
                have hd := List.head_cons_tail _ hdrop
                rw [hhead] at hd
                exact hd
              simp [this]
            · intro hc0
              rw [hmsg] at hc0
              exact h1 (by simp [hc0])
            · intro hmem
              rw [hmsg] at hmem
              have := List.mem_takeWhile_imp hmem
              simp at this
  · rintro ⟨t, v, hs, ⟨m, s1, g, ht, hm, hs1, hg⟩, hne, hnotin⟩
    subst ht
    subst hs
    simp only [List.cons_append, List.nil_append]
    have hpmsg : ∀ c ∈ msg, (fun ch => ch != '"') c = true := by
      intro c hc
      simp only [bne_iff_ne, ne_eq]
      intro he
      exact hnotin (he ▸ hc)
    obtain ⟨h1, h2⟩ := takeWhile_of_append (fun ch => ch != '"') msg '"' v
      hpmsg (by simp)
    simp only [matchAt, hm, hs1, hg, h1, h2]
    simp [List.isEmpty_iff, hne]

theorem matchesAtHead_nil (msg : List Char) : ¬ matchesAtHead [] msg := by
  rintro ⟨t, v, hs, ⟨m, s1, g, ht, -, -, -⟩, -, -⟩
  subst ht
  simp at hs

theorem extract_some_iff : ∀ (line msg : List Char),
    extract line = some msg ↔
      ∃ p, matchPos line p msg ∧
        ∀ q msg2, matchPos line q msg2 → p ≤ q := by
  intro line
  induction line with
  | nil =>
    intro msg
    constructor
    · intro h
      exact absurd h (by simp [extract])
    · rintro ⟨p, hp, -⟩
      have hmh : matchesAtHead [] msg := by
        unfold matchPos at hp
        rwa [List.drop_nil] at hp
      exact absurd hmh (matchesAtHead_nil msg)
  | cons c rest ih =>
    intro msg
    constructor
    · intro h
      simp only [extract] at h
      cases hm : matchAt (c :: rest) with
      | some m0 =>
        rw [hm] at h
        injection h with h
        subst h
        refine ⟨0, ?_, fun q msg2 _ => Nat.zero_le q⟩
        unfold matchPos
        rw [List.drop_zero]
        exact (matchAt_some_iff _ _).mp hm
      | none =>
        rw [hm] at h
        obtain ⟨p, hp, hmin⟩ := (ih msg).mp h
        refine ⟨p + 1, hp, ?_⟩
        intro q msg2 hq
        cases q with
        | zero =>
          exfalso
          have hmh : matchesAtHead (c :: rest) msg2 := by
            unfold matchPos at hq
            rwa [List.drop_zero] at hq
          have h2 := (matchAt_some_iff (c :: rest) msg2).mpr hmh
          rw [hm] at h2
          exact absurd h2 (by simp)
        | succ q =>
          have hq2 : matchPos rest q msg2 := hq
          exact Nat.succ_le_succ (hmin q msg2 hq2)
    · rintro ⟨p, hp, hmin⟩
      simp only [extract]
      cases hm : matchAt (c :: rest) with
      | some m0 =>
        have h0 : matchPos (c :: rest) 0 m0 := by
          unfold matchPos
          rw [List.drop_zero]
          exact (matchAt_some_iff _ _).mp hm
        have hp0 : p = 0 := Nat.le_zero.mp (hmin 0 m0 h0)
        subst hp0
        have hmh : matchesAtHead (c :: rest) msg := by
          unfold matchPos at hp
          rwa [List.drop_zero] at hp
        have h2 := (matchAt_some_iff _ _).mpr hmh
        rw [hm] at h2
        injection h2 with h2
        rw [h2]
      | none =>
        cases p with
        | zero =>
          exfalso
          have hmh : matchesAtHead (c :: rest) msg := by
            unfold matchPos at hp
            rwa [List.drop_zero] at hp
          have h2 := (matchAt_some_iff _ _).mpr hmh
          rw [hm] at h2
          exact absurd h2 (by simp)
        | succ p =>
          apply (ih msg).mpr
          refine ⟨p, hp, ?_⟩
          intro q msg2 hq
          have hq2 : matchPos (c :: rest) (q + 1) msg2 := hq
          have := hmin (q + 1) msg2 hq2
          omega

theorem extract_none_iff (line : List Char) :
    extract line = none ↔ ∀ p msg, ¬ matchPos line p msg := by
  classical
  constructor
  · intro h p msg hp
    have hex : ∃ q, ∃ msg2, matchPos line q msg2 := ⟨p, msg, hp⟩
    obtain ⟨msg2, hq⟩ := Nat.find_spec hex
    have hmin : ∀ r msg3, matchPos line r msg3 → Nat.find hex ≤ r := by
      intro r msg3 hr
      exact Nat.find_min' hex ⟨msg3, hr⟩
    have h2 := (extract_some_iff line msg2).mpr ⟨Nat.find hex, hq, hmin⟩
    rw [h] at h2
    exact absurd h2 (by simp)
  · intro h
    cases he : extract line with
    | none => rfl
    | some msg =>
      obtain ⟨p, hp, -⟩ := (extract_some_iff line msg).mp he
      exact absurd hp (h p msg)

theorem extract_some_ne_nil (line msg : List Char)
    (h : extract line = some msg) : msg ≠ [] := by
  obtain ⟨p, hp, -⟩ := (extract_some_iff line msg).mp h
  obtain ⟨t, v, -, -, hne, -⟩ := hp
  exact hne

/-! ### Lemmas about the chunk scanner -/

/-- The per-line test actually performed by the loop of `_find_matches`
(with the dead `not msg_content` guard included). -/
def rawMatch (lower : List Char) (line : Line) : Bool :=
  match extract line with
  | none => false
  | some msg => !msg.isEmpty && substrIn lower (msg.map Char.toLower)

theorem findLoop_fst (lower : List Char) (sink : Sink) :
    ∀ chunk : List Line,
      (findLoop lower sink chunk).1 = chunk.countP (rawMatch lower) := by
  intro chunk
  induction chunk with
  | nil => rfl
  | cons line rest ih =>
    rw [List.countP_cons]
    simp only [findLoop]
    cases hm : extract line with
    | none =>
      have hr : rawMatch lower line = false := by simp [rawMatch, hm]
      simp [hr, ih]
    | some msg =>
      by_cases h1 : msg.isEmpty
      · have hr : rawMatch lower line = false := by simp [rawMatch, hm, h1]
        simp [h1, hr, ih]
      · by_cases h2 : substrIn lower (msg.map Char.toLower)
        · have hr : rawMatch lower line = true := by
            simp [rawMatch, hm, h1, h2]
          simp [h1, h2, hr, ih]
        · have hr : rawMatch lower line = false := by
            simp [rawMatch, hm, h1, h2]
          simp [h1, h2, hr, ih]

theorem findLoop_snd (lower : List Char) (sink : Sink) :
    ∀ chunk : List Line,
      (findLoop lower sink chunk).2
        = (chunk.filter (rawMatch lower)).map (sinkWrite sink) := by
  intro chunk
  induction chunk with
  | nil => rfl
  | cons line rest ih =>
    rw [List.filter_cons]
    simp only [findLoop]
    cases hm : extract line with
    | none =>
      have hr : rawMatch lower line = false := by simp [rawMatch, hm]
      simp [hr, ih]
    | some msg =>
      by_cases h1 : msg.isEmpty
      · have hr : rawMatch lower line = false := by simp [rawMatch, hm, h1]
        simp [h1, hr, ih]
      · by_cases h2 : substrIn lower (msg.map Char.toLower)
        · have hr : rawMatch lower line = true := by
            simp [rawMatch, hm, h1, h2]
          simp [h1, h2, hr, ih]
        · have hr : rawMatch lower line = false := by
            simp [rawMatch, hm, h1, h2]
          simp [h1, h2, hr, ih]

theorem rawMatch_eq_lineIsMatch (target : List Char) (line : Line) :
    rawMatch (target.map Char.toLower) line = lineIsMatch target line := by
  unfold rawMatch lineIsMatch
  cases hm : extract line with
  | none => rfl
  | some msg =>
    have hne := extract_some_ne_nil line msg hm
    simp [List.isEmpty_iff, hne]

theorem find_matches_fst (target : List Char) (hne : target ≠ [])
    (sink : Sink) (chunk : List Line) :
    (find_matches target sink chunk).1 = chunk.countP (lineIsMatch target) := by
  unfold find_matches
  rw [if_neg (by simp [List.isEmpty_iff, hne])]
  rw [findLoop_fst]
  congr 1
  funext line
  exact rawMatch_eq_lineIsMatch target line

theorem find_matches_snd (target : List Char) (hne : target ≠ [])
    (sink : Sink) (chunk : List Line) :
    (find_matches target sink chunk).2
      = (chunk.filter (lineIsMatch target)).map (sinkWrite sink) := by
  unfold find_matches
  rw [if_neg (by simp [List.isEmpty_iff, hne])]
  rw [findLoop_snd]
  congr 2
  funext line
  exact rawMatch_eq_lineIsMatch target line

theorem find_matches_nil_chunk (target : List Char) (sink : Sink) :
    find_matches target sink [] = (0, []) := by
  unfold find_matches
  by_cases h : target.isEmpty
  · rw [if_pos h]
  · rw [if_neg h]
    rfl

/-! ### Lemmas about aggregation -/

theorem countP_flatten (p : Line → Bool) :
    ∀ cs : List (List Line),
      (cs.map (fun c => c.countP p)).sum = cs.flatten.countP p := by
  intro cs
  induction cs with
  | nil => rfl
  | cons c rest ih =>
    rw [List.map_cons, List.sum_cons, List.flatten_cons, List.countP_append, ih]

theorem sum_map_filter {α : Type} (p : α → Bool) (g : α → Nat)
    (h0 : ∀ a, p a = false → g a = 0) :
    ∀ cs : List α, ((cs.filter p).map g).sum = (cs.map g).sum := by
  intro cs
  induction cs with
  | nil => rfl
  | cons c rest ih =>
    rw [List.filter_cons, List.map_cons, List.sum_cons]
    by_cases h : p c
    · rw [if_pos h, List.map_cons, List.sum_cons, ih]
    · rw [if_neg h, ih, h0 c (by simpa using h), Nat.zero_add]

theorem collectTotal_map (f : List Line → Bool) (g : List Line → Nat) :
    ∀ cs : List (List Line),
      collectTotal (cs.map (fun c => if f c then none else some (g c)))
        = ((cs.filter (fun c => !f c)).map g).sum := by
  intro cs
  induction cs with
  | nil => rfl
  | cons c rest ih =>
    rw [List.map_cons, collectTotal.eq_def, List.filter_cons]
    by_cases h : f c
    · simp only [if_pos h, Bool.not_eq_true']  
      rw [ih]
      simp [h]
    · simp only [if_neg h]
      rw [ih]
      simp [h]

/-! ### Declarative characterization of Python substring containment -/

theorem leadsWith_iff : ∀ (needle hay : List Char),
    leadsWith needle hay = true ↔ ∃ v, hay = needle ++ v := by
  intro needle
  induction needle with
  | nil =>
    intro hay
    simp [leadsWith]
  | cons a as ih =>
    intro hay
    cases hay with
    | nil =>
      constructor
      · intro h
        exact absurd h (by simp [leadsWith])
      · rintro ⟨v, hv⟩
        simp at hv
    | cons b bs =>
      rw [leadsWith]
      constructor
      · intro h
        simp only [Bool.and_eq_true, beq_iff_eq] at h
        obtain ⟨hab, h⟩ := h
        obtain ⟨v, hv⟩ := (ih bs).mp h
        exact ⟨v, by rw [hab, hv]; rfl⟩
      · rintro ⟨v, hv⟩
        rw [List.cons_append] at hv
        injection hv with h1 h2
        simp only [Bool.and_eq_true, beq_iff_eq]
        exact ⟨h1.symm, (ih bs).mpr ⟨v, h2⟩⟩

theorem substrIn_iff : ∀ (hay needle : List Char),
    substrIn needle hay = true ↔ ∃ u v, hay = u ++ needle ++ v := by
  intro hay
  induction hay with
  | nil =>
    intro needle
    rw [substrIn]
    constructor
    · intro h
      refine ⟨[], [], ?_⟩
      have : needle = [] := List.isEmpty_iff.mp h
      simp [this]
    · rintro ⟨u, v, huv⟩
      have : needle = [] := by
        cases u with
        | nil =>
          cases needle with
          | nil => rfl
          | cons x xs => simp at huv
        | cons x xs => simp at huv
      simp [this]
  | cons c rest ih =>
    intro needle
    rw [substrIn]
    constructor
    · intro h
      rcases Bool.or_eq_true_iff.mp h with h | h
      · obtain ⟨v, hv⟩ := (leadsWith_iff needle (c :: rest)).mp h
        exact ⟨[], v, by simp [hv]⟩
      · obtain ⟨u, v, huv⟩ := (ih needle).mp h
        exact ⟨c :: u, v, by simp [huv]⟩
    · rintro ⟨u, v, huv⟩
      apply Bool.or_eq_true_iff.mpr
      cases u with
      | nil =>
        left
        exact (leadsWith_iff needle (c :: rest)).mpr ⟨v, by simpa using huv⟩
      | cons x xs =>
        right
        rw [List.cons_append, List.cons_append] at huv
        injection huv with h1 h2
        exact (ih needle).mpr ⟨xs, v, by simpa using h2⟩

/-! ### Claim theorems -/

/-- C2: for every list of lines and every worker count `n ≥ 1`,
`_split_lines_evenly` returns chunks that are contiguous sub-sequences of
the input, and concatenating all chunks in order reproduces the original
list exactly — no line lost and no line duplicated. -/
theorem chunks_cover_exactly {α : Type} (lines : List α) (n : Nat)
    (hn : 1 ≤ n) :
    (split_lines_evenly lines n).flatten = lines
    ∧ ∀ c ∈ split_lines_evenly lines n,
        ∃ u v, lines = u ++ c ++ v := by
  have hflat := split_lines_evenly_flatten lines n hn
  refine ⟨hflat, ?_⟩
  intro c hc
  obtain ⟨s, t, hst⟩ := List.append_of_mem hc
  refine ⟨s.flatten, t.flatten, ?_⟩
  rw [← hflat, hst]
  simp [List.flatten_append, List.flatten_cons, List.append_assoc]

/-- Witness for C2 at a concrete input. -/
theorem chunks_cover_exactly_witness :
    (1 ≤ 2)
    ∧ ((split_lines_evenly [10, 20, 30] 2).flatten = [10, 20, 30]
      ∧ ∀ c ∈ split_lines_evenly ([10, 20, 30] : List Nat) 2,
          ∃ u v, [10, 20, 30] = u ++ c ++ v) :=
  ⟨by decide, chunks_cover_exactly [10, 20, 30] 2 (by decide)⟩

/-- C3: `_split_lines_evenly` returns exactly `n` chunks; chunk `i` has
length `base + 1` when `i < remainder` and `base` otherwise (with
`base = L / n`, `remainder = L % n`); hence any two chunk sizes differ by
at most 1. -/
theorem chunk_count_and_sizes {α : Type} (lines : List α) (n : Nat)
    (hn : 1 ≤ n) :
    (split_lines_evenly lines n).length = n
    ∧ (∀ i (h : i < (split_lines_evenly lines n).length),
        ((split_lines_evenly lines n).get ⟨i, h⟩).length
          = lines.length / n
            + (if i < lines.length % n then 1 else 0))
    ∧ (∀ i j (hi : i < (split_lines_evenly lines n).length)
        (hj : j < (split_lines_evenly lines n).length),
        ((split_lines_evenly lines n).get ⟨i, hi⟩).length
          ≤ ((split_lines_evenly lines n).get ⟨j, hj⟩).length + 1) := by
  refine ⟨split_lines_evenly_length lines n, ?_, ?_⟩
  · intro i h
    exact split_chunk_length lines n hn i h
  · intro i j hi hj
    rw [split_chunk_length lines n hn i hi,
      split_chunk_length lines n hn j hj]
    have e1 : (if i < lines.length % n then 1 else 0) ≤ 1 := by
      split <;> omega
    have e2 : (0 : Nat) ≤ (if j < lines.length % n then 1 else 0) :=
      Nat.zero_le _
    omega

/-- Witness for C3 at a concrete input. -/
theorem chunk_count_and_sizes_witness :
    (1 ≤ 3)
    ∧ ((split_lines_evenly [10, 20, 30, 40, 50] 3).length = 3
      ∧ (∀ i (h : i < (split_lines_evenly [10, 20, 30, 40, 50] 3).length),
          ((split_lines_evenly ([10, 20, 30, 40, 50] : List Nat) 3).get
              ⟨i, h⟩).length
            = [10, 20, 30, 40, 50].length / 3
              + (if i < [10, 20, 30, 40, 50].length % 3 then 1 else 0))
      ∧ (∀ i j (hi : i < (split_lines_evenly [10, 20, 30, 40, 50] 3).length)
          (hj : j < (split_lines_evenly [10, 20, 30, 40, 50] 3).length),
          ((split_lines_evenly ([10, 20, 30, 40, 50] : List Nat) 3).get
              ⟨i, hi⟩).length
            ≤ ((split_lines_evenly ([10, 20, 30, 40, 50] : List Nat) 3).get
                ⟨j, hj⟩).length + 1)) :=
  ⟨by decide, chunk_count_and_sizes [10, 20, 30, 40, 50] 3 (by decide)⟩

/-- C6: for an empty configured service name the run aborts with exit
status 1 before any work: the outcome does not depend on the file content
at all, no matches are reported and no output is produced. -/
theorem empty_target_aborts (sink : Sink) (fileLines : List Line)
    (n : Nat) (failed : List Line → Bool) :
    process_file_in_chunks [] sink fileLines n failed = RunResult.exited 1
    ∧ ∀ fileLines2,
        process_file_in_chunks [] sink fileLines n failed
          = process_file_in_chunks [] sink fileLines2 n failed :=
  ⟨rfl, fun _ => rfl⟩

/-- C10: `_find_matches` itself returns 0 and writes nothing when the
service name is empty, independently of the orchestrator validation. -/
theorem scanner_guards_empty_target (sink : Sink) (chunk : List Line) :
    find_matches [] sink chunk = (0, []) := rfl

/-- C1: for every input and target, the sum over the chunks produced by
`_split_lines_evenly` of the per-chunk counts returned by `_find_matches`
equals the count obtained by scanning the whole input as one chunk, for
every worker count `n ≥ 1`. -/
theorem aggregate_invariance (lines : List Line) (target : List Char)
    (sink : Sink) (n : Nat) (hn : 1 ≤ n) :
    ((split_lines_evenly lines n).map
        (fun c => (find_matches target sink c).1)).sum
      = (find_matches target sink lines).1 := by
  by_cases ht : target = []
  · subst ht
    have h0 : ∀ c : List Line, (find_matches [] sink c).1 = 0 := fun c => rfl
    simp [h0]
  · calc ((split_lines_evenly lines n).map
          (fun c => (find_matches target sink c).1)).sum
        = ((split_lines_evenly lines n).map
            (fun c => c.countP (lineIsMatch target))).sum := by
          congr 1
          exact List.map_congr_left
            (fun c _ => find_matches_fst target ht sink c)
      _ = (split_lines_evenly lines n).flatten.countP (lineIsMatch target) :=
          countP_flatten _ _
      _ = lines.countP (lineIsMatch target) := by
          rw [split_lines_evenly_flatten lines n hn]
      _ = (find_matches target sink lines).1 :=
          (find_matches_fst target ht sink lines).symm

/-- Witness for C1 at a concrete input. -/
theorem aggregate_invariance_witness :
    (1 ≤ 2)
    ∧ ((split_lines_evenly
          [String.toList "msg:\"ssh Service\"\n",
           String.toList "nothing here\n",
           String.toList "msg:\"SSH login\"\n"] 2).map
        (fun c => (find_matches (String.toList "ssh") Sink.console c).1)).sum
      = (find_matches (String.toList "ssh") Sink.console
          [String.toList "msg:\"ssh Service\"\n",
           String.toList "nothing here\n",
           String.toList "msg:\"SSH login\"\n"]).1 :=
  ⟨by decide,
    aggregate_invariance
      [String.toList "msg:\"ssh Service\"\n",
       String.toList "nothing here\n",
       String.toList "msg:\"SSH login\"\n"]
      (String.toList "ssh") Sink.console 2 (by decide)⟩

/-- C4: for a non-empty target, `_find_matches` counts exactly the lines
on which the extractor yields a value whose lowered content contains the
lowered target as a substring; each counted line is forwarded to the
sink; a chunk with zero matches returns 0 rather than an error. -/
theorem scanner_match_semantics (target : List Char) (h : target ≠ [])
    (sink : Sink) (chunk : List Line) :
    (find_matches target sink chunk).1 = chunk.countP (lineIsMatch target)
    ∧ (∀ line, lineIsMatch target line = true ↔
        ∃ msg u v, extract line = some msg
          ∧ msg.map Char.toLower = u ++ target.map Char.toLower ++ v)
    ∧ (find_matches target sink chunk).2
        = (chunk.filter (lineIsMatch target)).map (sinkWrite sink)
    ∧ ((∀ l ∈ chunk, lineIsMatch target l = false) →
        find_matches target sink chunk = (0, [])) := by
  refine ⟨find_matches_fst target h sink chunk, ?_,
    find_matches_snd target h sink chunk, ?_⟩
  · intro line
    unfold lineIsMatch
    cases hm : extract line with
    | none => simp
    | some msg0 =>
      constructor
      · intro hs
        obtain ⟨u, v, huv⟩ := (substrIn_iff _ _).mp hs
        exact ⟨msg0, u, v, rfl, huv⟩
      · rintro ⟨msg, u, v, hmsg, huv⟩
        injection hmsg with hmsg
        subst hmsg
        exact (substrIn_iff _ _).mpr ⟨u, v, huv⟩
  · intro hall
    have h1 : chunk.countP (lineIsMatch target) = 0 :=
      List.countP_eq_zero.mpr (fun a ha => by simp [hall a ha])
    have h2 : chunk.filter (lineIsMatch target) = [] :=
      List.filter_eq_nil_iff.mpr (fun a ha => by simp [hall a ha])
    apply Prod.ext
    · rw [find_matches_fst target h sink chunk, h1]
    · rw [find_matches_snd target h sink chunk, h2]
      rfl

/-- Witness for C4 at a concrete input. -/
theorem scanner_match_semantics_witness :
    (find_matches (String.toList "http") Sink.file
        [String.toList "msg:\"HTTP Service X login\"\n"]).1
      = [String.toList "msg:\"HTTP Service X login\"\n"].countP
          (lineIsMatch (String.toList "http")) :=
  (scanner_match_semantics (String.toList "http") (by decide) Sink.file
    [String.toList "msg:\"HTTP Service X login\"\n"]).1

/-- C5: the extractor returns precisely the capture of the first position
where the case-insensitive tag `msg:` is followed by a double-quoted
non-empty string (everything between the quote after the tag and the next
quote), and returns none exactly when no position of the line matches. -/
theorem extractor_first_quoted_msg (line : List Char) :
    (∀ msg, extract line = some msg ↔
        ∃ p, matchPos line p msg
          ∧ ∀ q msg2, matchPos line q msg2 → p ≤ q)
    ∧ (extract line = none ↔ ∀ p msg, ¬ matchPos line p msg) :=
  ⟨fun msg => extract_some_iff line msg, extract_none_iff line⟩

/-- Witness for C5 at a concrete input: on `a msg:"AB" msg:"C"` the
extractor picks the first quoted msg value `AB`. -/
theorem extractor_first_quoted_msg_witness :
    ∃ p, matchPos (String.toList "a msg:\"AB\" msg:\"C\"") p ['A', 'B']
      ∧ ∀ q msg2,
          matchPos (String.toList "a msg:\"AB\" msg:\"C\"") q msg2 → p ≤ q :=
  ((extractor_first_quoted_msg (String.toList "a msg:\"AB\" msg:\"C\"")).1
    ['A', 'B']).mp (by decide)

/-- C7: with a valid service name, every run completes normally and the
reported total is the sum of the counts of the chunks whose workers did
not raise; failed chunks only lower the total. -/
theorem worker_failure_graceful (service_name : List Char)
    (h : service_name ≠ []) (sink : Sink) (lines : List Line) (n : Nat)
    (failed : List Line → Bool) :
    process_file_in_chunks service_name sink lines n failed
      = RunResult.completed
          (((((split_lines_evenly lines n).filter
                (fun c => !c.isEmpty)).filter (fun c => !failed c)).map
              (fun c => (find_matches service_name sink c).1)).sum) := by
  unfold process_file_in_chunks
  rw [if_neg (by simp [validate_service_name, List.isEmpty_iff, h])]
  show RunResult.completed (collectTotal
      (((split_lines_evenly lines n).filter (fun c => !c.isEmpty)).map
        (fun c => if failed c then none
                  else some (find_matches service_name sink c).1)))
    = _
  rw [collectTotal_map failed
    (fun c => (find_matches service_name sink c).1)]

/-- Witness for C7 at a concrete input where the only worker fails. -/
theorem worker_failure_graceful_witness :
    process_file_in_chunks (String.toList "a") Sink.console
        [String.toList "msg:\"a\"\n"] 1 (fun _ => true)
      = RunResult.completed
          (((((split_lines_evenly [String.toList "msg:\"a\"\n"] 1).filter
                (fun c => !c.isEmpty)).filter
              (fun c => !(fun _ : List Line => true) c)).map
            (fun c => (find_matches (String.toList "a") Sink.console
              c).1)).sum) :=
  worker_failure_graceful (String.toList "a") (by decide) Sink.console
    [String.toList "msg:\"a\"\n"] 1 (fun _ => true)

/-- C8 counterexample: the console sink uses `line.rstrip()`, which also
removes trailing whitespace other than the line terminator.  On the
matched line `msg:"a" \n` the console sink emits `msg:"a"` and not
`msg:"a" ` (the line with exactly its terminator removed). -/
theorem console_trim_counterexample :
    (find_matches (String.toList "a") Sink.console
        [String.toList "msg:\"a\" \n"]).1 = 1
    ∧ (find_matches (String.toList "a") Sink.console
        [String.toList "msg:\"a\" \n"]).2
      = [String.toList "msg:\"a\""]
    ∧ [String.toList "msg:\"a\""]
      ≠ [dropLineTerminator (String.toList "msg:\"a\" \n")] := by
  decide

/-- C8 amended: for every matched line, the file sink variant writes the
raw line verbatim (terminator included), while the console variant writes
the line with all trailing whitespace removed (Python `rstrip()`), not
just the line terminator. -/
theorem sink_write_behavior (target : List Char) (h : target ≠ [])
    (chunk : List Line) :
    (find_matches target Sink.file chunk).2
        = chunk.filter (lineIsMatch target)
    ∧ (find_matches target Sink.console chunk).2
        = (chunk.filter (lineIsMatch target)).map rstrip := by
  constructor
  · rw [find_matches_snd target h Sink.file chunk]
    have hs : sinkWrite Sink.file = fun line => line := rfl
    rw [hs, List.map_id']
  · rw [find_matches_snd target h Sink.console chunk]
    rfl

/-- Witness for C8 at a concrete input. -/
theorem sink_write_behavior_witness :
    (find_matches (String.toList "a") Sink.file
        [String.toList "msg:\"a\" \n"]).2
      = [String.toList "msg:\"a\" \n"].filter
          (lineIsMatch (String.toList "a")) :=
  (sink_write_behavior (String.toList "a") (by decide)
    [String.toList "msg:\"a\" \n"]).1

/-- C9: the compiled pattern requires at least one character between the
quotes, so the extractor never yields an empty capture; in particular a
line whose only msg field is the literal `msg:""` yields no value and
never matches, for any target. -/
theorem empty_msg_field_never_matches :
    (∀ line msg, extract line = some msg → msg ≠ [])
    ∧ extract (String.toList "alert tcp any any (msg:\"\"; sid:1;)") = none
    ∧ ∀ target,
        lineIsMatch target
            (String.toList "alert tcp any any (msg:\"\"; sid:1;)")
          = false := by
  refine ⟨extract_some_ne_nil, by decide, ?_⟩
  intro target
  unfold lineIsMatch
  have he : extract (String.toList "alert tcp any any (msg:\"\"; sid:1;)")
      = none := by decide
  rw [he]

/-- Witness for C9 at a concrete input. -/
theorem empty_msg_field_never_matches_witness :
    extract (String.toList "msg:\"s\"") = some ['s']
    ∧ (['s'] : List Char) ≠ [] :=
  ⟨by decide,
    empty_msg_field_never_matches.1 (String.toList "msg:\"s\"") ['s']
      (by decide)⟩
